import Mathlib

/-
  Verification model of the midimonster routing core.

  The repository ships the core interface header (src/midimonster.h), whose
  doc comments describe the lifecycle contract of backend modules, together
  with the backend headers. The core implementation files (the registries,
  the glob/mapping engine, the dispatch buffer and the event loop) are not
  part of the source tree available here, so the executable model below is
  built from the specification's description of those components, staying
  faithful to the header's declarations and doc comments where they speak.

  Conventions:
  - 64-bit idents are modelled as Nat (no claim exercises wrap-around).
  - Instances are identified by a Nat id; a channel is the pair of its
    owning instance id and its ident, per the header's channel struct
    (instance pointer + uint64_t ident).
  - channel_value is a payload the core forwards unmodified and never
    inspects; it is abstracted as Nat.
-/

set_option autoImplicit false

namespace Midimonster

/-- A channel: an addressable endpoint within an instance, identified by the
owning instance and a 64-bit ident (header struct _backend_channel). -/
structure Channel where
  inst : Nat
  ident : Nat
deriving DecidableEq

/-- Channel event value. The core never inspects the payload, only forwards
it (header struct _channel_value); it is abstracted as an opaque Nat. -/
abbrev ChannelValue := Nat

/-- Internal channel mapping entry: one source channel and its ordered list
of destination channels (header struct channel_mapping; the C field `from`
is a Lean keyword, hence `src`). The `destinations` count field of the C
struct is the length of `dst`. -/
structure ChannelMapping where
  src : Channel
  dst : List Channel
deriving DecidableEq

/-- Modelled from the spec: destination lookup in the mapping table
(the core's map array is not in the source tree). Returns the destination
list of the first mapping entry whose source is `c`, or the empty list when
the channel has no mapping entry. -/
def destinations : List ChannelMapping → Channel → List Channel
  | [], _ => []
  | m :: ms, c => if m.src = c then m.dst else destinations ms c

/-- Modelled from the spec: `mm_map_channel` (implementation not in the
source tree). Realizes one created mapping by appending the destination
channel to the source channel's destination list, creating the entry if the
source has none; no deduplication is performed. -/
def mm_map_channel : List ChannelMapping → Channel → Channel → List ChannelMapping
  | [], f, t => [⟨f, [t]⟩]
  | m :: ms, f, t =>
      if m.src = f then { m with dst := m.dst ++ [t] } :: ms
      else m :: mm_map_channel ms f t

/-- The Dispatch Buffer: the accumulation of (channel, value) updates for
one loop iteration, keyed by channel. -/
abbrev DispatchBuffer := List (Channel × ChannelValue)

/-- Modelled from the spec: recording one destination update into the
Dispatch Buffer, keyed by channel, overwriting any prior value recorded for
that channel within the same iteration (last-write-wins). -/
def record : DispatchBuffer → Channel → ChannelValue → DispatchBuffer
  | [], c, v => [(c, v)]
  | e :: rest, c, v => if e.1 = c then (c, v) :: rest else e :: record rest c v

/-- Value accumulated for a channel in the Dispatch Buffer, if any. -/
def bufferLookup : DispatchBuffer → Channel → Option ChannelValue
  | [], _ => none
  | e :: rest, c => if e.1 = c then some e.2 else bufferLookup rest c

/-- Modelled from the spec: `mm_channel_event` (implementation not in the
source tree). A backend reports a live value change; the core looks up the
channel's destination list, silently dropping the event when it is empty,
and otherwise records the new value for every destination channel into the
Dispatch Buffer. Delivery is deferred; the call itself only accumulates.
The first component is the C return code (0 = success). -/
def mm_channel_event (maps : List ChannelMapping) (buf : DispatchBuffer)
    (c : Channel) (v : ChannelValue) : Nat × DispatchBuffer :=
  (0, (destinations maps c).foldl (fun b d => record b d v) buf)

/-- Folding a list of reports of one iteration into the Dispatch Buffer,
starting from an arbitrary buffer state. -/
def runReportsFrom (maps : List ChannelMapping) (buf : DispatchBuffer) :
    List (Channel × ChannelValue) → DispatchBuffer
  | [] => buf
  | r :: rs => runReportsFrom maps (mm_channel_event maps buf r.1 r.2).2 rs

/-- The Dispatch Buffer produced by one iteration's reports, starting from
the empty buffer of a fresh iteration. -/
def runReports (maps : List ChannelMapping)
    (reports : List (Channel × ChannelValue)) : DispatchBuffer :=
  runReportsFrom maps [] reports

/-- Spec-side description of last-write-wins: the value delivered for a
destination channel is the value of the last report of the iteration whose
destination set contains that channel. -/
def lastWrite (maps : List ChannelMapping) :
    List (Channel × ChannelValue) → Channel → Option ChannelValue
  | [], _ => none
  | r :: rs, d =>
      match lastWrite maps rs d with
      | some v => some v
      | none => if d ∈ destinations maps r.1 then some r.2 else none

/-- First-occurrence deduplication, keeping ids not seen before. -/
def firstDedupAux (seen : List Nat) : List Nat → List Nat
  | [] => []
  | x :: xs =>
      if x ∈ seen then firstDedupAux seen xs
      else x :: firstDedupAux (x :: seen) xs

/-- First-occurrence deduplication of a list of instance ids. -/
def firstDedup (l : List Nat) : List Nat := firstDedupAux [] l

/-- Modelled from the spec: the flush step of one loop iteration. For each
instance with accumulated channel updates (in order of first appearance),
one handle invocation carrying the full set of changed (channel, value)
pairs of that instance for this iteration. -/
def flush (buf : DispatchBuffer) : List (Nat × DispatchBuffer) :=
  (firstDedup (buf.map (fun e => e.1.inst))).map
    (fun i => (i, buf.filter (fun e => decide (e.1.inst = i))))

theorem bufferLookup_record_self (b : DispatchBuffer) (c : Channel) (v : ChannelValue) :
    bufferLookup (record b c v) c = some v := by
  induction b with
  | nil => simp [record, bufferLookup]
  | cons e rest ih =>
      by_cases h : e.1 = c
      · simp [record, h, bufferLookup]
      · simp [record, h, bufferLookup, ih]

theorem bufferLookup_record_other (b : DispatchBuffer) (c d : Channel) (v : ChannelValue)
    (hdc : d ≠ c) : bufferLookup (record b c v) d = bufferLookup b d := by
  have hcd : c ≠ d := fun h => hdc h.symm
  induction b with
  | nil => simp [record, bufferLookup, hcd]
  | cons e rest ih =>
      by_cases h : e.1 = c
      · have hed : e.1 ≠ d := h ▸ hcd
        simp [record, h, bufferLookup, hcd, hed]
      · simp only [record, if_neg h]
        by_cases hed : e.1 = d
        · simp [bufferLookup, hed]
        · simp [bufferLookup, hed, ih]

theorem bufferLookup_foldl_record (ds : List Channel) (b : DispatchBuffer)
    (d : Channel) (v : ChannelValue) :
    bufferLookup (ds.foldl (fun acc x => record acc x v) b) d =
      if d ∈ ds then some v else bufferLookup b d := by
  induction ds generalizing b with
  | nil => simp
  | cons e ds ih =>
      by_cases hmem : d ∈ ds
      · simp [List.foldl_cons, ih, hmem]
      · by_cases hde : d = e
        · subst hde
          simp [List.foldl_cons, ih, hmem, bufferLookup_record_self]
        · simp [List.foldl_cons, ih, hmem, hde,
            bufferLookup_record_other _ _ _ _ hde]

theorem bufferLookup_event (maps : List ChannelMapping) (b : DispatchBuffer)
    (c d : Channel) (v : ChannelValue) :
    bufferLookup (mm_channel_event maps b c v).2 d =
      if d ∈ destinations maps c then some v else bufferLookup b d := by
  simp [mm_channel_event, bufferLookup_foldl_record]

theorem bufferLookup_runReportsFrom (maps : List ChannelMapping)
    (rs : List (Channel × ChannelValue)) (b : DispatchBuffer) (d : Channel) :
    bufferLookup (runReportsFrom maps b rs) d =
      match lastWrite maps rs d with
      | some v => some v
      | none => bufferLookup b d := by
  induction rs generalizing b with
  | nil => simp [runReportsFrom, lastWrite]
  | cons r rs ih =>
      simp only [runReportsFrom, lastWrite, ih, bufferLookup_event]
      cases lastWrite maps rs d with
      | some v => simp
      | none =>
          by_cases hmem : d ∈ destinations maps r.1
          · simp [hmem]
          · simp [hmem]

/-- The accumulated value in the iteration buffer is exactly the value of
the last report targeting that destination. -/
theorem bufferLookup_runReports (maps : List ChannelMapping)
    (rs : List (Channel × ChannelValue)) (d : Channel) :
    bufferLookup (runReports maps rs) d =
      match lastWrite maps rs d with
      | some v => some v
      | none => none := by
  simp [runReports, bufferLookup_runReportsFrom, bufferLookup]

theorem record_keys_mem (b : DispatchBuffer) (c : Channel) (v : ChannelValue) (d : Channel) :
    d ∈ (record b c v).map Prod.fst ↔ d ∈ b.map Prod.fst ∨ d = c := by
  induction b with
  | nil => simp [record]
  | cons e rest ih =>
      by_cases h : e.1 = c
      · subst h
        simp [record]
        tauto
      · simp [record, h, ih]
        tauto

theorem record_keys_nodup (b : DispatchBuffer) (c : Channel) (v : ChannelValue)
    (h : (b.map Prod.fst).Nodup) : ((record b c v).map Prod.fst).Nodup := by
  induction b with
  | nil => simp [record]
  | cons e rest ih =>
      simp only [List.map_cons, List.nodup_cons] at h
      by_cases hec : e.1 = c
      · subst hec
        simp [record, List.nodup_cons, h.1, h.2]
      · simp only [record, if_neg hec, List.map_cons, List.nodup_cons]
        refine ⟨?_, ih h.2⟩
        rw [record_keys_mem]
        rintro (hm | hm)
        · exact h.1 hm
        · exact hec hm

theorem foldl_record_keys_nodup (ds : List Channel) (b : DispatchBuffer) (v : ChannelValue)
    (h : (b.map Prod.fst).Nodup) :
    ((ds.foldl (fun acc x => record acc x v) b).map Prod.fst).Nodup := by
  induction ds generalizing b with
  | nil => simpa using h
  | cons e ds ih => exact ih _ (record_keys_nodup _ _ _ h)

theorem runReportsFrom_keys_nodup (maps : List ChannelMapping)
    (rs : List (Channel × ChannelValue)) (b : DispatchBuffer)
    (h : (b.map Prod.fst).Nodup) :
    ((runReportsFrom maps b rs).map Prod.fst).Nodup := by
  induction rs generalizing b with
  | nil => simpa [runReportsFrom] using h
  | cons r rs ih =>
      exact ih _ (foldl_record_keys_nodup _ _ _ h)

theorem runReports_keys_nodup (maps : List ChannelMapping)
    (rs : List (Channel × ChannelValue)) :
    ((runReports maps rs).map Prod.fst).Nodup :=
  runReportsFrom_keys_nodup maps rs [] (by simp)

theorem mem_firstDedupAux (l : List Nat) (seen : List Nat) (a : Nat) :
    a ∈ firstDedupAux seen l ↔ a ∈ l ∧ a ∉ seen := by
  induction l generalizing seen with
  | nil => simp [firstDedupAux]
  | cons x xs ih =>
      by_cases hx : x ∈ seen
      · rw [firstDedupAux, if_pos hx, ih]
        by_cases hax : a = x
        · subst hax
          simp [hx]
        · simp [hax]
      · rw [firstDedupAux, if_neg hx, List.mem_cons, ih]
        by_cases hax : a = x
        · subst hax
          simp [hx]
        · simp [hax]

theorem mem_firstDedup (l : List Nat) (a : Nat) : a ∈ firstDedup l ↔ a ∈ l := by
  rw [firstDedup, mem_firstDedupAux]
  simp

theorem nodup_firstDedupAux (l : List Nat) (seen : List Nat) :
    (firstDedupAux seen l).Nodup := by
  induction l generalizing seen with
  | nil => simp [firstDedupAux]
  | cons x xs ih =>
      by_cases hx : x ∈ seen
      · rw [firstDedupAux, if_pos hx]
        exact ih seen
      · rw [firstDedupAux, if_neg hx]
        refine List.nodup_cons.mpr ⟨?_, ih _⟩
        rw [mem_firstDedupAux]
        rintro ⟨-, hmem⟩
        simp at hmem

theorem nodup_firstDedup (l : List Nat) : (firstDedup l).Nodup :=
  nodup_firstDedupAux l []

theorem flush_map_fst (buf : DispatchBuffer) :
    (flush buf).map Prod.fst = firstDedup (buf.map (fun e => e.1.inst)) := by
  simp [flush, List.map_map, Function.comp_def]

/-- Appending one mapping extends the source's destination list by exactly
that destination. -/
theorem destinations_mm_map_channel_self (maps : List ChannelMapping) (f t : Channel) :
    destinations (mm_map_channel maps f t) f = destinations maps f ++ [t] := by
  induction maps with
  | nil => simp [mm_map_channel, destinations]
  | cons m ms ih =>
      by_cases h : m.src = f
      · simp [mm_map_channel, h, destinations]
      · simp [mm_map_channel, h, destinations, ih]

/-- C1: in every iteration, events reported via `mm_channel_event` are
flushed with exactly one handle invocation per destination instance that has
changed channels (no instance twice, no other instance), each carrying the
full set of that instance's changed (channel, value) pairs; each changed
channel is carried at most once, with the value of the last report that
targeted it (last-write-wins in call order). -/
theorem dispatch_flush_batching (maps : List ChannelMapping)
    (reports : List (Channel × ChannelValue)) :
    ((flush (runReports maps reports)).map Prod.fst).Nodup
    ∧ (∀ i : Nat, i ∈ (flush (runReports maps reports)).map Prod.fst ↔
        ∃ e, e ∈ runReports maps reports ∧ e.1.inst = i)
    ∧ (∀ p, p ∈ flush (runReports maps reports) →
        p.2 = (runReports maps reports).filter (fun e => decide (e.1.inst = p.1)))
    ∧ ((runReports maps reports).map Prod.fst).Nodup
    ∧ (∀ d : Channel, bufferLookup (runReports maps reports) d = lastWrite maps reports d) := by
  refine ⟨?_, ?_, ?_, runReports_keys_nodup maps reports, ?_⟩
  · rw [flush_map_fst]
    exact nodup_firstDedup _
  · intro i
    rw [flush_map_fst, mem_firstDedup]
    simp
  · intro p hp
    simp only [flush, List.mem_map] at hp
    obtain ⟨i, -, rfl⟩ := hp
    rfl
  · intro d
    rw [bufferLookup_runReports]
    cases lastWrite maps reports d <;> rfl

/-- Destination instance A of the worked example in the spec. -/
def demoA : Channel := ⟨1, 10⟩

/-- A second destination channel owned by the same instance as `demoA`. -/
def demoA2 : Channel := ⟨1, 11⟩

/-- Destination channel owned by instance B. -/
def demoB : Channel := ⟨2, 20⟩

/-- The reporting source channel of the worked example. -/
def demoSrc : Channel := ⟨0, 1⟩

/-- A source whose destinations span instances A, B and A again. -/
def demoMaps : List ChannelMapping := [⟨demoSrc, [demoA, demoB, demoA2]⟩]

/-- Two reports on the same source within one iteration. -/
def demoReports : List (Channel × ChannelValue) := [(demoSrc, 5), (demoSrc, 7)]

theorem dispatch_flush_batching_witness :
    ((flush (runReports demoMaps demoReports)).map Prod.fst).Nodup
    ∧ bufferLookup (runReports demoMaps demoReports) demoA = lastWrite demoMaps demoReports demoA
    ∧ flush (runReports demoMaps demoReports) =
        [(1, [(demoA, 7), (demoA2, 7)]), (2, [(demoB, 7)])] :=
  ⟨(dispatch_flush_batching demoMaps demoReports).1,
   (dispatch_flush_batching demoMaps demoReports).2.2.2.2 demoA,
   by decide⟩

/-- C8: reporting an event on a channel with an empty destination list
succeeds (return code 0), leaves the Dispatch Buffer unchanged, and an
iteration consisting of only such reports flushes zero handle calls. -/
theorem event_without_destinations_dropped (maps : List ChannelMapping)
    (buf : DispatchBuffer) (c : Channel) (v : ChannelValue)
    (h : destinations maps c = []) :
    mm_channel_event maps buf c v = (0, buf)
    ∧ flush (runReports maps [(c, v)]) = [] := by
  constructor
  · simp [mm_channel_event, h]
  · simp [runReports, runReportsFrom, mm_channel_event, h, flush, firstDedup, firstDedupAux]

theorem event_without_destinations_dropped_witness :
    mm_channel_event [] [(demoA, 9)] demoSrc 3 = (0, [(demoA, 9)])
    ∧ flush (runReports [] [(demoSrc, 3)]) = [] :=
  event_without_destinations_dropped [] [(demoA, 9)] demoSrc 3 (by decide)

/-- The doubly-registered source channel of the duplicate-mapping example. -/
def dupF : Channel := ⟨0, 1⟩

/-- The doubly-registered destination channel of the duplicate-mapping example. -/
def dupT : Channel := ⟨1, 2⟩

/-- The mapping table after registering the pair (dupF, dupT) twice. -/
def dupMaps : List ChannelMapping := mm_map_channel (mm_map_channel [] dupF dupT) dupF dupT

/-- C5 counterexample: registering the same (source, destination) pair twice
does append two destination-list entries, but the destination's handle
callback does not observe the channel twice: after a report on the source,
the flushed per-instance set carries the destination channel exactly once,
because the Dispatch Buffer accumulation is keyed by channel. -/
theorem duplicate_mapping_single_delivery :
    (destinations dupMaps dupF).length = 2
    ∧ ((runReports dupMaps [(dupF, 5)]).filter (fun e => decide (e.1 = dupT))).length = 1
    ∧ flush (runReports dupMaps [(dupF, 5)]) = [(1, [(dupT, 5)])] := by decide

/-- C5 amended: registering the same (source, destination) pair twice via
`mm_map_channel` appends two entries to the source channel's destination
list (no deduplication in the mapping table); nevertheless, since the
per-instance accumulation is keyed by channel, the destination's handle
callback observes each channel at most once per iteration, and a report on
the source delivers the destination exactly once with the reported value. -/
theorem duplicate_mapping_appends_twice (maps : List ChannelMapping) (f t : Channel) :
    destinations (mm_map_channel (mm_map_channel maps f t) f t) f
      = destinations maps f ++ [t, t]
    ∧ (∀ reports, ((runReports (mm_map_channel (mm_map_channel maps f t) f t) reports).map
        Prod.fst).Nodup)
    ∧ (∀ v : ChannelValue,
        bufferLookup (runReports (mm_map_channel (mm_map_channel maps f t) f t) [(f, v)]) t
          = some v) := by
  have hdest : destinations (mm_map_channel (mm_map_channel maps f t) f t) f
      = destinations maps f ++ [t, t] := by
    rw [destinations_mm_map_channel_self, destinations_mm_map_channel_self]
    simp
  refine ⟨hdest, fun reports => runReports_keys_nodup _ reports, fun v => ?_⟩
  rw [bufferLookup_runReports]
  have ht : t ∈ destinations (mm_map_channel (mm_map_channel maps f t) f t) f := by
    rw [hdest]; simp
  simp [lastWrite, ht]

/-- Position of the first channel matching (instance, ident) in the channel
registry, scanning in registration order. -/
def channelIndex (i ident : Nat) : List Channel → Option Nat
  | [] => none
  | c :: cs =>
      if c.inst = i ∧ c.ident = ident then some 0
      else (channelIndex i ident cs).map (fun k => k + 1)

/-- Modelled from the spec: `mm_channel` / get_or_create_channel
(implementation not in the source tree). If a channel with `ident` exists
under instance `i`, it is returned (as its registry position, the model of
reference identity); else, when `create` is false the call fails (the C
function returns NULL, modelled as `none`) and when `create` is true a new
channel is appended to the registry and returned. The second component is
the registry after the call. -/
def mm_channel (chans : List Channel) (i ident : Nat) (create : Bool) :
    Option Nat × List Channel :=
  match channelIndex i ident chans with
  | some k => (some k, chans)
  | none =>
      if create then (some chans.length, chans ++ [⟨i, ident⟩])
      else (none, chans)

theorem channelIndex_eq_none_iff (i ident : Nat) (chans : List Channel) :
    channelIndex i ident chans = none ↔
      ∀ c ∈ chans, ¬(c.inst = i ∧ c.ident = ident) := by
  induction chans with
  | nil => simp [channelIndex]
  | cons c cs ih =>
      by_cases h : c.inst = i ∧ c.ident = ident
      · simp [channelIndex, h]
      · simp [channelIndex, h, ih]
        tauto

theorem channelIndex_append_self (i ident : Nat) (chans : List Channel)
    (h : channelIndex i ident chans = none) :
    channelIndex i ident (chans ++ [⟨i, ident⟩]) = some chans.length := by
  induction chans with
  | nil => simp [channelIndex]
  | cons c cs ih =>
      rw [channelIndex_eq_none_iff] at h
      have hc : ¬(c.inst = i ∧ c.ident = ident) := h c (by simp)
      have hcs : channelIndex i ident cs = none := by
        rw [channelIndex_eq_none_iff]
        exact fun x hx => h x (List.mem_cons_of_mem _ hx)
      simp [channelIndex, hc, ih hcs]

theorem channelIndex_getElem (i ident : Nat) (chans : List Channel) (k : Nat)
    (h : channelIndex i ident chans = some k) : chans[k]? = some ⟨i, ident⟩ := by
  induction chans generalizing k with
  | nil => simp [channelIndex] at h
  | cons c cs ih =>
      by_cases hc : c.inst = i ∧ c.ident = ident
      · rw [channelIndex, if_pos hc] at h
        obtain rfl : (0 : Nat) = k := Option.some.inj h
        obtain ⟨h1, h2⟩ := hc
        simp [← h1, ← h2]
      · rw [channelIndex, if_neg hc] at h
        cases hcs : channelIndex i ident cs with
        | none => rw [hcs] at h; simp at h
        | some j =>
            rw [hcs] at h
            obtain rfl : j + 1 = k := Option.some.inj h
            simpa using ih j hcs

/-- C7: looking up a channel that does not exist under the instance with
`create = false` fails (returns NULL, modelled `none`) and allocates
nothing: the channel registry is returned unchanged. -/
theorem mm_channel_lookup_missing (chans : List Channel) (i ident : Nat)
    (h : ∀ c ∈ chans, ¬(c.inst = i ∧ c.ident = ident)) :
    mm_channel chans i ident false = (none, chans) := by
  have hnone : channelIndex i ident chans = none :=
    (channelIndex_eq_none_iff i ident chans).mpr h
  simp [mm_channel, hnone]

theorem mm_channel_lookup_missing_witness :
    (∀ c ∈ ([⟨3, 7⟩] : List Channel), ¬(c.inst = 2 ∧ c.ident = 9))
    ∧ mm_channel [⟨3, 7⟩] 2 9 false = (none, [⟨3, 7⟩]) :=
  ⟨by decide, mm_channel_lookup_missing [⟨3, 7⟩] 2 9 (by decide)⟩

/-- C6: two `mm_channel` calls with identical (instance, ident) arguments
and `create = true` return the same channel (the same registry position,
i.e. reference identity) with the registry unchanged by the second call (no
second allocation); the returned position holds exactly the channel with
that instance and ident, so (instance, ident) uniquely identifies it. -/
theorem mm_channel_create_idempotent (chans : List Channel) (i ident : Nat) :
    mm_channel (mm_channel chans i ident true).2 i ident true
      = mm_channel chans i ident true
    ∧ ∃ k, (mm_channel chans i ident true).1 = some k
        ∧ (mm_channel chans i ident true).2[k]? = some ⟨i, ident⟩ := by
  cases hidx : channelIndex i ident chans with
  | some k =>
      constructor
      · simp [mm_channel, hidx]
      · exact ⟨k, by simp [mm_channel, hidx], by
          simp only [mm_channel, hidx]
          exact channelIndex_getElem i ident chans k hidx⟩
  | none =>
      have happ := channelIndex_append_self i ident chans hidx
      constructor
      · simp [mm_channel, hidx, happ]
      · refine ⟨chans.length, by simp [mm_channel, hidx], ?_⟩
        simp only [mm_channel, hidx, if_pos]
        exact channelIndex_getElem i ident _ _ happ

/-- Configuration-time failures of the glob/mapping engine (spec section 7). -/
inductive ConfigError
  | GlobCardinalityMismatch
  | GlobSyntaxError
deriving DecidableEq

/-- A bracketed glob token denoting the numeric range [lo-hi] of a channel
spec (header struct channel_glob: `limits.u64[2]` bounds). Enumerations and
range parsing are out of model; globs arrive parsed. -/
structure ChannelGlob where
  lo : Nat
  hi : Nat
deriving DecidableEq

/-- The ordered concrete values a single glob token expands to. -/
def expandGlob (g : ChannelGlob) : List Nat :=
  (List.range (g.hi + 1 - g.lo)).map (fun k => g.lo + k)

/-- Modelled from the spec: glob expansion of one channel spec (the config
parser is not in the source tree). Every glob position is walked
outermost-to-innermost, left-to-right, producing the ordered list of
concrete channel idents (one value per glob position). -/
def expandSpec : List ChannelGlob → List (List Nat)
  | [] => [[]]
  | g :: gs =>
      ((expandGlob g).map (fun v => (expandSpec gs).map (fun rest => v :: rest))).flatten

/-- Modelled from the spec: mapping creation for one paired
source/destination spec (the config parser is not in the source tree). The
two expansions must have equal length; a mismatch is rejected with
GlobCardinalityMismatch, otherwise the lists are paired positionally. -/
def createMappings (src dst : List ChannelGlob) :
    Except ConfigError (List (List Nat × List Nat)) :=
  if (expandSpec src).length = (expandSpec dst).length
  then Except.ok ((expandSpec src).zip (expandSpec dst))
  else Except.error ConfigError.GlobCardinalityMismatch

/-- Modelled from the spec: processing every configured spec pair in order;
any failing pair rejects the whole configuration. -/
def setupMappings :
    List (List ChannelGlob × List ChannelGlob) →
      Except ConfigError (List (List Nat × List Nat))
  | [] => Except.ok []
  | p :: ps =>
      match createMappings p.1 p.2, setupMappings ps with
      | Except.ok ms, Except.ok rest => Except.ok (ms ++ rest)
      | Except.error e, _ => Except.error e
      | _, Except.error e => Except.error e

/-- Modelled from the spec: startup ordering — configuration is rejected
before the loop starts, so a config error starts no instances. -/
def startInstances (cfg : List (List ChannelGlob × List ChannelGlob))
    (insts : List Nat) : List Nat :=
  match setupMappings cfg with
  | Except.ok _ => insts
  | Except.error _ => []

theorem createMappings_error_kind (src dst : List ChannelGlob) (e : ConfigError)
    (h : createMappings src dst = Except.error e) :
    e = ConfigError.GlobCardinalityMismatch := by
  by_cases heq : (expandSpec src).length = (expandSpec dst).length
  · simp [createMappings, heq] at h
  · simp [createMappings, heq] at h
    exact h.symm

theorem setupMappings_error_of_mem (cfg : List (List ChannelGlob × List ChannelGlob))
    (src dst : List ChannelGlob) (hmem : (src, dst) ∈ cfg)
    (hne : (expandSpec src).length ≠ (expandSpec dst).length) :
    setupMappings cfg = Except.error ConfigError.GlobCardinalityMismatch := by
  induction cfg with
  | nil => simp at hmem
  | cons q ps ih =>
      rcases List.mem_cons.mp hmem with hq | hq
      · subst hq
        have herr : createMappings src dst
            = Except.error ConfigError.GlobCardinalityMismatch := by
          simp [createMappings, hne]
        cases hps : setupMappings ps <;> simp [setupMappings, herr, hps]
      · cases hcm : createMappings q.1 q.2 with
        | error e =>
            obtain rfl := createMappings_error_kind q.1 q.2 e hcm
            cases hps : setupMappings ps <;> simp [setupMappings, hcm, hps]
        | ok ms =>
            simp [setupMappings, hcm, ih hq]

/-- C2: for a paired source/destination glob expansion, the two ordered
lists must have equal length; a mismatch fails with GlobCardinalityMismatch
(and only a mismatch does), a mismatching pair anywhere in the
configuration rejects it before the loop starts so that no instance is
started, and equal lengths L produce exactly L positional mappings. -/
theorem glob_cardinality_enforced (src dst : List ChannelGlob)
    (cfg : List (List ChannelGlob × List ChannelGlob)) (insts : List Nat) :
    (createMappings src dst = Except.error ConfigError.GlobCardinalityMismatch
      ↔ (expandSpec src).length ≠ (expandSpec dst).length)
    ∧ ((expandSpec src).length = (expandSpec dst).length →
        ∃ ms, createMappings src dst = Except.ok ms
          ∧ ms.length = (expandSpec src).length)
    ∧ ((src, dst) ∈ cfg → (expandSpec src).length ≠ (expandSpec dst).length →
        setupMappings cfg = Except.error ConfigError.GlobCardinalityMismatch
        ∧ startInstances cfg insts = []) := by
  refine ⟨?_, ?_, ?_⟩
  · constructor
    · intro h heq
      simp [createMappings, heq] at h
    · intro hne
      simp [createMappings, hne]
  · intro heq
    refine ⟨(expandSpec src).zip (expandSpec dst), by simp [createMappings, heq], ?_⟩
    simp [List.length_zip, heq]
  · intro hmem hne
    have herr := setupMappings_error_of_mem cfg src dst hmem hne
    exact ⟨herr, by simp [startInstances, herr]⟩

theorem glob_cardinality_enforced_witness :
    createMappings [ChannelGlob.mk 1 4] [ChannelGlob.mk 5 7]
        = Except.error ConfigError.GlobCardinalityMismatch
    ∧ startInstances [([ChannelGlob.mk 1 4], [ChannelGlob.mk 5 7])] [0, 1] = [] :=
  ⟨((glob_cardinality_enforced [ChannelGlob.mk 1 4] [ChannelGlob.mk 5 7] [] []).1).mpr
      (by decide),
   ((glob_cardinality_enforced [ChannelGlob.mk 1 4] [ChannelGlob.mk 5 7]
      [([ChannelGlob.mk 1 4], [ChannelGlob.mk 5 7])] [0, 1]).2.2
      (by decide) (by decide)).2⟩

/-- C3: with equal expansion lengths, the mapping created at index i pairs
the i-th ident of the source list with the i-th ident of the destination
list. -/
theorem glob_positional_pairing (src dst : List ChannelGlob) (i : Nat)
    (heq : (expandSpec src).length = (expandSpec dst).length)
    (hi : i < (expandSpec src).length) :
    ∃ ms s d, createMappings src dst = Except.ok ms
      ∧ (expandSpec src)[i]? = some s
      ∧ (expandSpec dst)[i]? = some d
      ∧ ms[i]? = some (s, d) := by
  have hid : i < (expandSpec dst).length := heq ▸ hi
  refine ⟨(expandSpec src).zip (expandSpec dst), (expandSpec src)[i], (expandSpec dst)[i],
    by simp [createMappings, heq], List.getElem?_eq_getElem hi,
    List.getElem?_eq_getElem hid, ?_⟩
  rw [List.getElem?_zip_eq_some]
  exact ⟨List.getElem?_eq_getElem hi, List.getElem?_eq_getElem hid⟩

/-- The worked example: glob pair [1-4] / [5-8] maps source ident 2 (list
position 1) to destination ident 6 (the same position in its list). -/
theorem glob_positional_pairing_witness :
    ∃ ms, createMappings [ChannelGlob.mk 1 4] [ChannelGlob.mk 5 8] = Except.ok ms
      ∧ ms[1]? = some ([2], [6]) := by
  obtain ⟨ms, s, d, h1, h2, h3, h4⟩ :=
    glob_positional_pairing [ChannelGlob.mk 1 4] [ChannelGlob.mk 5 8] 1
      (by decide) (by decide)
  have hs : some s = some ([2] : List Nat) := by rw [← h2]; decide
  have hd : some d = some ([6] : List Nat) := by rw [← h3]; decide
  obtain rfl : s = [2] := Option.some.inj hs
  obtain rfl : d = [6] := Option.some.inj hd
  exact ⟨ms, h1, h4⟩

/-- Per-backend data of the event loop model: the number of configured
instances, the result of the start call, the scripted per-iteration result
of the processing callback (true = success, missing iterations succeed),
the optional declared polling interval in milliseconds, and the (ignored)
return value of the shutdown callback. -/
structure BackendModel where
  instances : Nat
  startOk : Bool
  processResults : List Bool
  interval : Option Nat
  shutdownResult : Bool
deriving DecidableEq

/-- Calls the core makes into backend entry points, in trace order. -/
inductive CoreCall
  | startCall (b : Nat)
  | processCall (b : Nat)
  | shutdownCall (b : Nat)
deriving DecidableEq

/-- Whether a trace entry is a shutdown invocation. -/
def isShutdownCall : CoreCall → Bool
  | CoreCall.shutdownCall _ => true
  | _ => false

/-- Modelled from the spec and the header start contract: the startup
phase. Backends are visited in registration order starting at index
`base`; only backends with at least one configured instance receive the
start call, and a failing start stops further progress. The boolean is
true when every due backend started successfully. -/
def startPhase : List BackendModel → Nat → List CoreCall × Bool
  | [], _ => ([], true)
  | b :: bs, base =>
      if b.instances = 0 then startPhase bs (base + 1)
      else if b.startOk then
        (CoreCall.startCall base :: (startPhase bs (base + 1)).1,
         (startPhase bs (base + 1)).2)
      else ([CoreCall.startCall base], false)

/-- Indices of the started backends (those with configured instances),
counting from `base`. -/
def startedIdxFrom : List BackendModel → Nat → List Nat
  | [], _ => []
  | b :: bs, base =>
      if b.instances = 0 then startedIdxFrom bs (base + 1)
      else base :: startedIdxFrom bs (base + 1)

/-- Indices of the started backends in registration order. -/
def startedIdx (bs : List BackendModel) : List Nat := startedIdxFrom bs 0

/-- Scripted result of backend `k`'s processing callback at iteration `it`. -/
def processResultAt (bs : List BackendModel) (k it : Nat) : Bool :=
  match bs[k]? with
  | some b => b.processResults.getD it true
  | none => true

/-- Modelled from the spec: one loop iteration's processing step. Every
started backend is invoked once (backends with zero registered fds are
still called, so fd readiness is not modelled); the boolean is false when
any processing callback signalled failure. -/
def processIter (bs : List BackendModel) (it : Nat) : List CoreCall × Bool :=
  ((startedIdx bs).map CoreCall.processCall,
   (startedIdx bs).all (fun k => processResultAt bs k it))

/-- Modelled from the spec: the event loop. It runs until the external
shutdown signal (observed between iterations, at iteration `signalAt`) or
until a processing callback signals failure; `fuel` bounds the modelled
run length. -/
def loopPhase (bs : List BackendModel) (signalAt : Nat) : Nat → Nat → List CoreCall
  | 0, _ => []
  | fuel + 1, it =>
      if signalAt ≤ it then []
      else
        (processIter bs it).1 ++
          (if (processIter bs it).2 then loopPhase bs signalAt fuel (it + 1) else [])

/-- Modelled from the spec: the shutdown sequence on loop exit. Every
registered backend receives the shutdown call exactly once, in
registration order, regardless of whether it was started; return values
are ignored. -/
def shutdownPhase (bs : List BackendModel) : List CoreCall :=
  (List.range bs.length).map CoreCall.shutdownCall

/-- Modelled from the spec: the full process trace — startup phase, event
loop (skipped when a start call failed), then the shutdown sequence,
whatever the reason for loop exit was. -/
def runProcess (bs : List BackendModel) (signalAt fuel : Nat) : List CoreCall :=
  (startPhase bs 0).1
    ++ (if (startPhase bs 0).2 then loopPhase bs signalAt fuel 0 else [])
    ++ shutdownPhase bs

theorem startPhase_no_shutdown (bs : List BackendModel) (base : Nat) (c : CoreCall)
    (hc : c ∈ (startPhase bs base).1) : isShutdownCall c = false := by
  induction bs generalizing base with
  | nil => simp [startPhase] at hc
  | cons b bs ih =>
      by_cases h0 : b.instances = 0
      · rw [startPhase, if_pos h0] at hc
        exact ih (base + 1) hc
      · by_cases hok : b.startOk
        · rw [startPhase, if_neg h0, if_pos hok] at hc
          rcases List.mem_cons.mp hc with rfl | hc
          · rfl
          · exact ih (base + 1) hc
        · rw [startPhase, if_neg h0, if_neg hok] at hc
          rcases List.mem_cons.mp hc with rfl | hc
          · rfl
          · simp at hc

theorem loopPhase_no_shutdown (bs : List BackendModel) (signalAt fuel it : Nat)
    (c : CoreCall) (hc : c ∈ loopPhase bs signalAt fuel it) :
    isShutdownCall c = false := by
  induction fuel generalizing it with
  | zero => simp [loopPhase] at hc
  | succ fuel ih =>
      rw [loopPhase] at hc
      by_cases hsig : signalAt ≤ it
      · rw [if_pos hsig] at hc
        simp at hc
      · rw [if_neg hsig] at hc
        rcases List.mem_append.mp hc with hc | hc
        · simp only [processIter, List.mem_map] at hc
          obtain ⟨k, -, rfl⟩ := hc
          rfl
        · by_cases hok : (processIter bs it).2
          · rw [if_pos hok] at hc
            exact ih (it + 1) hc
          · rw [if_neg hok] at hc
            simp at hc

theorem startPhase_ignore_shutdownResult (bs : List BackendModel) (r : Bool) (base : Nat) :
    startPhase (bs.map (fun b => { b with shutdownResult := r })) base
      = startPhase bs base := by
  induction bs generalizing base with
  | nil => rfl
  | cons b bs ih => simp [startPhase, ih]

theorem startedIdxFrom_ignore_shutdownResult (bs : List BackendModel) (r : Bool) (base : Nat) :
    startedIdxFrom (bs.map (fun b => { b with shutdownResult := r })) base
      = startedIdxFrom bs base := by
  induction bs generalizing base with
  | nil => rfl
  | cons b bs ih => simp [startedIdxFrom, ih]

theorem processResultAt_ignore_shutdownResult (bs : List BackendModel) (r : Bool)
    (k it : Nat) :
    processResultAt (bs.map (fun b => { b with shutdownResult := r })) k it
      = processResultAt bs k it := by
  simp only [processResultAt, List.getElem?_map]
  cases bs[k]? <;> rfl

theorem processIter_ignore_shutdownResult (bs : List BackendModel) (r : Bool) (it : Nat) :
    processIter (bs.map (fun b => { b with shutdownResult := r })) it
      = processIter bs it := by
  simp [processIter, startedIdx, startedIdxFrom_ignore_shutdownResult,
    processResultAt_ignore_shutdownResult]

theorem loopPhase_ignore_shutdownResult (bs : List BackendModel) (r : Bool)
    (signalAt fuel it : Nat) :
    loopPhase (bs.map (fun b => { b with shutdownResult := r })) signalAt fuel it
      = loopPhase bs signalAt fuel it := by
  induction fuel generalizing it with
  | zero => rfl
  | succ fuel ih => simp [loopPhase, processIter_ignore_shutdownResult, ih]

/-- C4: whenever the loop exits — external signal, process failure or a
start failure that prevented the loop from ever running — the trailing part
of the process trace invokes shutdown on every registered backend exactly
once, in the fixed registration order, and the trace is unaffected by the
shutdown return values. -/
theorem shutdown_exactly_once (bs : List BackendModel) (signalAt fuel : Nat) :
    (runProcess bs signalAt fuel).filter isShutdownCall
        = (List.range bs.length).map CoreCall.shutdownCall
    ∧ (∀ k, k < bs.length →
        (runProcess bs signalAt fuel).count (CoreCall.shutdownCall k) = 1)
    ∧ (∀ r : Bool,
        runProcess (bs.map (fun b => { b with shutdownResult := r })) signalAt fuel
          = runProcess bs signalAt fuel) := by
  have hstart : (startPhase bs 0).1.filter isShutdownCall = [] :=
    List.filter_eq_nil_iff.mpr (fun c hc => by
      simp [startPhase_no_shutdown bs 0 c hc])
  have hloop : ∀ l : List CoreCall,
      (if (startPhase bs 0).2 then loopPhase bs signalAt fuel 0 else []).filter
        isShutdownCall = [] := fun _ =>
    List.filter_eq_nil_iff.mpr (fun c hc => by
      by_cases h : (startPhase bs 0).2
      · rw [if_pos h] at hc
        simp [loopPhase_no_shutdown bs signalAt fuel 0 c hc]
      · rw [if_neg h] at hc
        simp at hc)
  have hshut : (shutdownPhase bs).filter isShutdownCall = shutdownPhase bs :=
    List.filter_eq_self.mpr (fun c hc => by
      simp only [shutdownPhase, List.mem_map] at hc
      obtain ⟨k, -, rfl⟩ := hc
      rfl)
  refine ⟨?_, ?_, ?_⟩
  · rw [runProcess, List.filter_append, List.filter_append, hstart, hloop [], hshut]
    simp [shutdownPhase]
  · intro k hk
    have h1 : (startPhase bs 0).1.count (CoreCall.shutdownCall k) = 0 :=
      List.count_eq_zero.mpr (fun hmem => by
        have := startPhase_no_shutdown bs 0 _ hmem
        simp [isShutdownCall] at this)
    have h2 : (if (startPhase bs 0).2 then loopPhase bs signalAt fuel 0 else []).count
        (CoreCall.shutdownCall k) = 0 :=
      List.count_eq_zero.mpr (fun hmem => by
        by_cases h : (startPhase bs 0).2
        · rw [if_pos h] at hmem
          have := loopPhase_no_shutdown bs signalAt fuel 0 _ hmem
          simp [isShutdownCall] at this
        · rw [if_neg h] at hmem
          simp at hmem)
    have h3 : (shutdownPhase bs).count (CoreCall.shutdownCall k) = 1 := by
      rw [shutdownPhase, List.count_map_of_injective _ CoreCall.shutdownCall
        (fun a b h => by cases h; rfl) k]
      exact List.count_eq_one_of_mem (List.nodup_range _) (List.mem_range.mpr hk)
    rw [runProcess, List.count_append, List.count_append, h1, h2, h3]
  · intro r
    simp [runProcess, startPhase_ignore_shutdownResult,
      loopPhase_ignore_shutdownResult, shutdownPhase]

/-- A two-backend registry: both have configured instances and scripted
process failures, one declares an interval. -/
def demoBackends : List BackendModel :=
  [⟨1, true, [true, false], some 300, true⟩, ⟨2, true, [true, true], none, false⟩]

theorem shutdown_exactly_once_witness :
    (runProcess demoBackends 5 4).count (CoreCall.shutdownCall 0) = 1
    ∧ (runProcess demoBackends 5 4).count (CoreCall.shutdownCall 1) = 1 :=
  ⟨(shutdown_exactly_once demoBackends 5 4).2.1 0 (by decide),
   (shutdown_exactly_once demoBackends 5 4).2.1 1 (by decide)⟩

theorem startPhase_mem_ge (bs : List BackendModel) (base j : Nat)
    (h : CoreCall.startCall j ∈ (startPhase bs base).1) : base ≤ j := by
  induction bs generalizing base with
  | nil => simp [startPhase] at h
  | cons b bs ih =>
      by_cases h0 : b.instances = 0
      · rw [startPhase, if_pos h0] at h
        exact Nat.le_of_succ_le (ih (base + 1) h)
      · by_cases hok : b.startOk = true
        · rw [startPhase, if_neg h0, if_pos hok] at h
          rcases List.mem_cons.mp h with he | h
          · obtain rfl : j = base := by injection he
            exact Nat.le_refl _
          · exact Nat.le_of_succ_le (ih (base + 1) h)
        · rw [startPhase, if_neg h0, if_neg hok] at h
          rcases List.mem_cons.mp h with he | h
          · obtain rfl : j = base := by injection he
            exact Nat.le_refl _
          · simp at h

theorem startPhase_mem_iff (bs : List BackendModel) (base k : Nat) (b : BackendModel)
    (hk : bs[k]? = some b) :
    CoreCall.startCall (base + k) ∈ (startPhase bs base).1 ↔
      b.instances ≠ 0 ∧ ∀ j b', j < k → bs[j]? = some b' →
        b'.instances ≠ 0 → b'.startOk = true := by
  induction bs generalizing base k with
  | nil => simp at hk
  | cons b0 bs ih =>
      cases k with
      | zero =>
          obtain rfl : b0 = b := by simpa using hk
          by_cases h0 : b0.instances = 0
          · rw [startPhase, if_pos h0]
            constructor
            · intro hmem
              have := startPhase_mem_ge bs (base + 1) (base + 0) hmem
              omega
            · rintro ⟨hinst, -⟩
              exact absurd h0 hinst
          · by_cases hok : b0.startOk = true
            · rw [startPhase, if_neg h0, if_pos hok]
              constructor
              · exact fun _ => ⟨h0, fun j b' hj => absurd hj (Nat.not_lt_zero j)⟩
              · intro _
                simp
            · rw [startPhase, if_neg h0, if_neg hok]
              constructor
              · exact fun _ => ⟨h0, fun j b' hj => absurd hj (Nat.not_lt_zero j)⟩
              · intro _
                simp
      | succ k =>
          have hk' : bs[k]? = some b := by simpa using hk
          have heq : base + (k + 1) = (base + 1) + k := by omega
          by_cases h0 : b0.instances = 0
          · rw [startPhase, if_pos h0, heq, ih (base + 1) k hk']
            constructor
            · rintro ⟨hinst, hall⟩
              refine ⟨hinst, fun j b' hj hjb hbi => ?_⟩
              cases j with
              | zero =>
                  obtain rfl : b0 = b' := by simpa using hjb
                  exact absurd h0 hbi
              | succ j =>
                  exact hall j b' (Nat.lt_of_succ_lt_succ hj) (by simpa using hjb) hbi
            · rintro ⟨hinst, hall⟩
              exact ⟨hinst, fun j b' hj hjb hbi =>
                hall (j + 1) b' (Nat.succ_lt_succ hj) (by simpa using hjb) hbi⟩
          · by_cases hok : b0.startOk = true
            · rw [startPhase, if_neg h0, if_pos hok, List.mem_cons]
              have hne : ¬(CoreCall.startCall (base + (k + 1)) = CoreCall.startCall base) := by
                intro h
                injection h with h
                omega
              rw [heq, ih (base + 1) k hk']
              constructor
              · rintro (habs | ⟨hinst, hall⟩)
                · rw [← heq] at habs
                  exact absurd habs hne
                · refine ⟨hinst, fun j b' hj hjb hbi => ?_⟩
                  cases j with
                  | zero =>
                      obtain rfl : b0 = b' := by simpa using hjb
                      exact hok
                  | succ j =>
                      exact hall j b' (Nat.lt_of_succ_lt_succ hj) (by simpa using hjb) hbi
              · rintro ⟨hinst, hall⟩
                exact Or.inr ⟨hinst, fun j b' hj hjb hbi =>
                  hall (j + 1) b' (Nat.succ_lt_succ hj) (by simpa using hjb) hbi⟩
            · rw [startPhase, if_neg h0, if_neg hok]
              constructor
              · intro hmem
                rcases List.mem_cons.mp hmem with he | he
                · injection he with he
                  omega
                · simp at he
              · rintro ⟨-, hall⟩
                have hstarted := hall 0 b0 (Nat.succ_pos k) (by simp) h0
                exact absurd hstarted hok

theorem loopPhase_mem_process (bs : List BackendModel) (signalAt fuel it : Nat)
    (c : CoreCall) (hc : c ∈ loopPhase bs signalAt fuel it) :
    ∃ j, c = CoreCall.processCall j := by
  induction fuel generalizing it with
  | zero => simp [loopPhase] at hc
  | succ fuel ih =>
      rw [loopPhase] at hc
      by_cases hsig : signalAt ≤ it
      · rw [if_pos hsig] at hc
        simp at hc
      · rw [if_neg hsig] at hc
        rcases List.mem_append.mp hc with hc | hc
        · simp only [processIter, List.mem_map] at hc
          obtain ⟨k, -, rfl⟩ := hc
          exact ⟨k, rfl⟩
        · by_cases hok : (processIter bs it).2
          · rw [if_pos hok] at hc
            exact ih (it + 1) hc
          · rw [if_neg hok] at hc
            simp at hc

/-- C10 amended: a backend's start entry point is invoked during startup if
and only if it has at least one configured instance and every
earlier-registered backend due to start started successfully (a failing
start stops further progress, per the header contract); in particular a
backend with zero configured instances never receives a start call, while
the shutdown call is still delivered to it. -/
theorem start_called_iff (bs : List BackendModel) (signalAt fuel k : Nat)
    (b : BackendModel) (hk : bs[k]? = some b) :
    (CoreCall.startCall k ∈ runProcess bs signalAt fuel ↔
      b.instances ≠ 0 ∧ ∀ j b', j < k → bs[j]? = some b' →
        b'.instances ≠ 0 → b'.startOk = true)
    ∧ (b.instances = 0 → CoreCall.startCall k ∉ runProcess bs signalAt fuel)
    ∧ CoreCall.shutdownCall k ∈ runProcess bs signalAt fuel := by
  have hmain : CoreCall.startCall k ∈ runProcess bs signalAt fuel ↔
      b.instances ≠ 0 ∧ ∀ j b', j < k → bs[j]? = some b' →
        b'.instances ≠ 0 → b'.startOk = true := by
    rw [runProcess, List.mem_append, List.mem_append]
    have hloop : CoreCall.startCall k ∉
        (if (startPhase bs 0).2 then loopPhase bs signalAt fuel 0 else []) := by
      intro hmem
      by_cases h : (startPhase bs 0).2
      · rw [if_pos h] at hmem
        obtain ⟨j, hj⟩ := loopPhase_mem_process bs signalAt fuel 0 _ hmem
        cases hj
      · rw [if_neg h] at hmem
        simp at hmem
    have hshut : CoreCall.startCall k ∉ shutdownPhase bs := by
      intro hmem
      simp only [shutdownPhase, List.mem_map] at hmem
      obtain ⟨j, -, hj⟩ := hmem
      cases hj
    have hbase := startPhase_mem_iff bs 0 k b hk
    rw [Nat.zero_add] at hbase
    constructor
    · rintro ((hm | hm) | hm)
      · exact hbase.mp hm
      · exact absurd hm hloop
      · exact absurd hm hshut
    · intro h
      exact Or.inl (Or.inl (hbase.mpr h))
  have hlt : k < bs.length := by
    rcases List.getElem?_eq_some.mp hk with ⟨hlt, -⟩
    exact hlt
  refine ⟨hmain, ?_, ?_⟩
  · intro h0 hmem
    exact absurd ((hmain.mp hmem).1) (fun hne => hne h0)
  · rw [runProcess, List.mem_append]
    refine Or.inr ?_
    simp only [shutdownPhase, List.mem_map]
    exact ⟨k, List.mem_range.mpr hlt, rfl⟩

/-- A single-backend registry with configured instances, used to witness
the startup characterization on its success path. -/
def soloBackend : List BackendModel := [⟨3, true, [], none, true⟩]

theorem start_called_iff_witness :
    CoreCall.startCall 0 ∈ runProcess soloBackend 1 2
    ∧ CoreCall.shutdownCall 0 ∈ runProcess soloBackend 1 2 :=
  ⟨(start_called_iff soloBackend 1 2 0 ⟨3, true, [], none, true⟩ rfl).1.mpr
      ⟨by decide, fun j b' hj => absurd hj (Nat.not_lt_zero j)⟩,
   (start_called_iff soloBackend 1 2 0 ⟨3, true, [], none, true⟩ rfl).2.2⟩

/-- A registry in which the first backend has instances but fails its start
call, while the second backend also has configured instances. -/
def failStartBackends : List BackendModel :=
  [⟨1, false, [], none, true⟩, ⟨1, true, [], none, true⟩]

/-- C10 counterexample: backend 1 has a configured instance, yet its start
entry point is never invoked, because the earlier backend's failing start
call stops further progress — so "start is invoked iff at least one
instance is configured" does not hold as an equivalence. (Backend 1 still
receives its shutdown call.) -/
theorem start_called_iff_counterexample :
    failStartBackends[1]?.map (fun b => b.instances) = some 1
    ∧ CoreCall.startCall 1 ∉ runProcess failStartBackends 3 3
    ∧ CoreCall.shutdownCall 1 ∈ runProcess failStartBackends 3 3 := by decide

/-- The polling intervals declared by started backends (those with
configured instances) that implement the optional interval entry point. -/
def declaredIntervals (bs : List BackendModel) : List Nat :=
  bs.filterMap (fun b => if b.instances = 0 then none else b.interval)

/-- Modelled from the spec: the per-iteration sleep interval (step 1 of the
loop). Starting from the one-second default (used when a backend does not
implement the interval entry point), every started backend that declares a
polling interval lowers it by taking the minimum. -/
def backendsInterval (bs : List BackendModel) : Nat :=
  bs.foldl (fun acc b =>
    if b.instances = 0 then acc
    else
      match b.interval with
      | some i => min acc i
      | none => acc) 1000

/-- Modelled from the spec: the wake deadline of one loop iteration. -/
def wakeDeadline (now : Nat) (bs : List BackendModel) : Nat :=
  now + backendsInterval bs

theorem backendsInterval_foldl (bs : List BackendModel) (acc : Nat) :
    bs.foldl (fun acc b =>
      if b.instances = 0 then acc
      else
        match b.interval with
        | some i => min acc i
        | none => acc) acc = (declaredIntervals bs).foldl min acc := by
  induction bs generalizing acc with
  | nil => rfl
  | cons b bs ih =>
      by_cases h0 : b.instances = 0
      · simp [declaredIntervals, h0, ih]
      · cases hint : b.interval with
        | none => simp [declaredIntervals, h0, hint, ih]
        | some i => simp [declaredIntervals, h0, hint, ih]

theorem foldl_min_spec (ds : List Nat) (acc : Nat) :
    ds.foldl min acc ≤ acc
    ∧ (∀ d ∈ ds, ds.foldl min acc ≤ d)
    ∧ (ds.foldl min acc = acc ∨ ds.foldl min acc ∈ ds) := by
  induction ds generalizing acc with
  | nil => exact ⟨Nat.le_refl _, by simp, Or.inl rfl⟩
  | cons d ds ih =>
      obtain ⟨hle, hall, hor⟩ := ih (min acc d)
      refine ⟨Nat.le_trans hle (Nat.min_le_left _ _), ?_, ?_⟩
      · intro e he
        rcases List.mem_cons.mp he with rfl | he
        · exact Nat.le_trans hle (Nat.min_le_right _ _)
        · exact hall e he
      · rcases hor with heq | hmem
        · rcases Nat.le_total acc d with had | hda
          · exact Or.inl (by rw [List.foldl_cons, heq, Nat.min_eq_left had])
          · refine Or.inr (List.mem_cons.mpr (Or.inl ?_))
            rw [List.foldl_cons, heq, Nat.min_eq_right hda]
        · exact Or.inr (List.mem_cons.mpr (Or.inr hmem))

/-- C9: the wake deadline of an iteration is now plus the computed sleep
interval, and that interval is exactly the minimum of 1000ms and every
started backend's declared polling interval: it never exceeds 1000ms, is a
lower bound of every declared interval, equals 1000ms when no started
backend declares one, and is otherwise either 1000ms or one of the declared
intervals. -/
theorem wake_deadline_bound (now : Nat) (bs : List BackendModel) :
    wakeDeadline now bs = now + backendsInterval bs
    ∧ backendsInterval bs ≤ 1000
    ∧ (∀ d ∈ declaredIntervals bs, backendsInterval bs ≤ d)
    ∧ (declaredIntervals bs = [] → backendsInterval bs = 1000)
    ∧ (backendsInterval bs = 1000 ∨ backendsInterval bs ∈ declaredIntervals bs) := by
  have hfold : backendsInterval bs = (declaredIntervals bs).foldl min 1000 :=
    backendsInterval_foldl bs 1000
  obtain ⟨hle, hall, hor⟩ := foldl_min_spec (declaredIntervals bs) 1000
  refine ⟨rfl, ?_, ?_, ?_, ?_⟩
  · rw [hfold]
    exact hle
  · intro d hd
    rw [hfold]
    exact hall d hd
  · intro hnil
    rw [hfold, hnil]
    rfl
  · rw [hfold]
    exact hor

/-- A registry where started backends declare intervals 250 and 700, one
started backend declares none, and a backend with zero instances declares
100 (which must not count). -/
def intervalDemo : List BackendModel :=
  [⟨1, true, [], some 250, true⟩, ⟨2, true, [], none, true⟩,
   ⟨0, true, [], some 100, true⟩, ⟨1, true, [], some 700, true⟩]

theorem wake_deadline_bound_witness :
    backendsInterval intervalDemo ≤ 250
    ∧ wakeDeadline 40 intervalDemo = 40 + backendsInterval intervalDemo
    ∧ backendsInterval intervalDemo = 250 :=
  ⟨(wake_deadline_bound 40 intervalDemo).2.2.1 250 (by decide),
   (wake_deadline_bound 40 intervalDemo).1,
   by decide⟩

end Midimonster
